import Mathlib

/-!
Verification of the Pearl contextual-bandit core against its specification.

The development shallowly embeds, in Lean 4:
  * `DiscreteContextualBanditReplayBuffer`
    (src/pearl/core/contextual_bandits/replay_buffer/discrete_contextual_bandit_replay_buffer.py):
    a `deque(maxlen=capacity)` of transitions with `push` and `sample`;
  * the sparse-reward environments
    (src/utils/instantiations/environments/sparse_reward_environment.py);
  * the policy-learner / exploration operations (`act`, `learn_batch`, LinUCB
    `get_scores`) whose implementation files are not part of this source tree:
    those are modelled from the spec, as marked in their doc comments.

Python floats are modelled as rationals (`ℚ`); the real-valued square root in
the LinUCB score uses `Real.sqrt`.  Randomness (`random.sample`,
`random.uniform`) is made explicit: the random draw appears as a parameter of
the embedded function, constrained by the properties Python guarantees of it
(for `random.sample`: a list of distinct in-range indices).
-/

namespace Pearl

/-- A Python-level value flowing through the replay buffer: raw scalars or
lists, or a (1-D) torch tensor.  The distinction raw/tensor is what the spec
talks about when it says push "converts raw action/state representations into
tensor-form". -/
inductive PyVal where
  | rawInt (n : ℤ)
  | rawFloat (q : ℚ)
  | rawList (data : List ℚ)
  | tensor (data : List ℚ)
  deriving DecidableEq, Repr

/-- Whether a value is in tensor form. -/
def PyVal.isTensor : PyVal → Bool
  | .tensor _ => true
  | _ => false

/-- Modelled from the spec: `TensorBasedReplayBuffer._process_single_state` is
imported by the buffer but its file is not under src/.  The spec says `push`
"converts raw action/state representations into tensor-form"; this function
converts a raw state value into a tensor. -/
def processSingleState : PyVal → PyVal
  | .rawInt n => .tensor [(n : ℚ)]
  | .rawFloat q => .tensor [q]
  | .rawList data => .tensor data
  | .tensor data => .tensor data

/-- Modelled from the spec: `TensorBasedReplayBuffer._process_single_reward` is
imported by the buffer but its file is not under src/.  It converts the scalar
reward into tensor form. -/
def processSingleReward (r : ℚ) : PyVal := .tensor [r]

/-- A stored transition of `DiscreteContextualBanditReplayBuffer`: only state,
action and reward are kept (no next state, no done flag). -/
structure Transition where
  state : PyVal
  action : PyVal
  reward : PyVal
  deriving DecidableEq, Repr

instance : Inhabited Transition := ⟨⟨.tensor [], .tensor [], .tensor []⟩⟩

/-- The batch returned by `sample`: per-row lists, mirroring
`torch.cat` of states, `torch.stack` of actions, `torch.cat` of rewards
(row `i` of each field comes from the same drawn transition). -/
structure TransitionBatch where
  state : List PyVal
  action : List PyVal
  reward : List PyVal
  deriving DecidableEq, Repr

/-- The buffer object: `self.capacity` and `self.memory`, a
`deque([], maxlen=capacity)` listed oldest-first. -/
structure Buffer where
  capacity : ℕ
  memory : List Transition
  deriving DecidableEq, Repr

/-- Appending to a `deque` with `maxlen = cap`: the element goes to the right
end and, past capacity, elements are discarded from the left (oldest first). -/
def dequeAppend (cap : ℕ) (mem : List Transition) (t : Transition) : List Transition :=
  (mem ++ [t]).drop ((mem ++ [t]).length - cap)

/-- The arguments of `push` (the signature matches the other replay buffers;
`next_state`, the action-space arguments and `done` are accepted and ignored
by this buffer). -/
structure PushArgs where
  state : PyVal
  action : PyVal
  reward : ℚ
  next_state : PyVal
  curr_available_actions : PyVal
  next_available_actions : PyVal
  action_space : PyVal
  done : Bool

/-- The transition `push` stores: the state goes through
`_process_single_state`, the reward through `_process_single_reward`, and the
action is stored exactly as passed (the source reads `action=action`). -/
def mkTransition (a : PushArgs) : Transition :=
  { state := processSingleState a.state
    action := a.action
    reward := processSingleReward a.reward }

/-- `DiscreteContextualBanditReplayBuffer.push`: build the transition and
append it to the deque. -/
def Buffer.push (b : Buffer) (a : PushArgs) : Buffer :=
  { b with memory := dequeAppend b.capacity b.memory (mkTransition a) }

/-- A sequence of `push` calls, in order. -/
def Buffer.pushAll (b : Buffer) (as : List PushArgs) : Buffer :=
  as.foldl Buffer.push b

/-- A freshly constructed buffer: `deque([], maxlen=capacity)`. -/
def Buffer.emptyBuf (cap : ℕ) : Buffer := ⟨cap, []⟩

/-- The errors `sample` may signal.  `valueError` is what Python's
`random.sample` raises when the requested size exceeds the population;
`insufficientDataError` is the error class named by the spec (it does not
occur in this source file, so it is modelled from the spec for comparison). -/
inductive SampleError where
  | valueError
  | insufficientDataError
  deriving DecidableEq, Repr

/-- `DiscreteContextualBanditReplayBuffer.sample`: `random.sample(self.memory,
batch_size)` raises `ValueError` when `batch_size > len(self.memory)`;
otherwise it returns `batch_size` elements drawn without replacement.  The
random draw is modelled by an explicit index list `pick` (the indices
`random.sample` chose); the Python library guarantees `pick` has length
`batch_size`, distinct entries, all below the population size, which becomes
a hypothesis of the theorems. -/
def Buffer.sample (b : Buffer) (batch_size : ℕ) (pick : List ℕ) :
    Except SampleError TransitionBatch :=
  if b.memory.length < batch_size then .error .valueError
  else
    let samples := pick.map (fun i => b.memory.getD i default)
    .ok { state := samples.map Transition.state
          action := samples.map Transition.action
          reward := samples.map Transition.reward }

/-- The `sample` method seen as a state transformer on the buffer object: the
method body only reads `self.memory` (and `random.sample` does not mutate the
population it draws from), so the post-state is the receiver unchanged. -/
def Buffer.sampleM (b : Buffer) (batch_size : ℕ) (pick : List ℕ) :
    Except SampleError TransitionBatch × Buffer :=
  (b.sample batch_size pick, b)

theorem dequeAppend_of_drop (cap : ℕ) (L : List Transition) (t : Transition) :
    dequeAppend cap (L.drop (L.length - cap)) t = (L ++ [t]).drop (L.length + 1 - cap) := by
  unfold dequeAppend
  rcases le_or_lt L.length cap with hle | hlt
  · rw [Nat.sub_eq_zero_of_le hle, List.drop_zero]
    simp
  · rcases Nat.eq_zero_or_pos cap with hc | hc
    · subst hc
      rw [List.drop_eq_nil_of_le (by simp), List.drop_eq_nil_of_le (by simp)]
    · have hmemlen : (L.drop (L.length - cap)).length = cap := by
        rw [List.length_drop]; omega
      have h1 : ((L.drop (L.length - cap)) ++ [t]).length - cap = 1 := by
        simp [hmemlen]
      rw [h1, List.drop_append_of_le_length (by omega),
        List.drop_append_of_le_length (by omega), List.drop_drop]
      congr 2
      omega

theorem pushAll_memory (cap : ℕ) (L : List Transition) (as : List PushArgs) :
    (Buffer.pushAll ⟨cap, L.drop (L.length - cap)⟩ as).memory
      = (L ++ as.map mkTransition).drop ((L ++ as.map mkTransition).length - cap) := by
  induction as generalizing L with
  | nil => simp [Buffer.pushAll]
  | cons a as ih =>
    have hstep : Buffer.push ⟨cap, L.drop (L.length - cap)⟩ a
        = ⟨cap, (L ++ [mkTransition a]).drop ((L ++ [mkTransition a]).length - cap)⟩ := by
      simp only [Buffer.push, dequeAppend_of_drop]
      congr 1
      simp
    have := ih (L ++ [mkTransition a])
    simp only [Buffer.pushAll, List.foldl_cons] at *
    rw [hstep, this]
    simp [List.append_assoc]

/-- C1: for every capacity `C` and every sequence of `push` calls starting
from an empty buffer, the memory is exactly the last `min(C, n)` pushed
transitions in insertion order (FIFO / ring-buffer eviction: once full, each
push evicts the oldest entry), and in particular the length never exceeds `C`.
Instantiating with `C = 5` and 7 pushes gives exactly the last 5, in order. -/
theorem buffer_fifo_ring (cap : ℕ) (as : List PushArgs) :
    ((Buffer.emptyBuf cap).pushAll as).memory
        = (as.map mkTransition).drop (as.length - cap)
      ∧ ((Buffer.emptyBuf cap).pushAll as).memory.length ≤ cap := by
  have h := pushAll_memory cap [] as
  simp only [List.drop_nil, List.nil_append, List.length_map] at h
  have h2 : ((Buffer.emptyBuf cap).pushAll as).memory
      = (as.map mkTransition).drop (as.length - cap) := by
    simpa [Buffer.emptyBuf] using h
  refine ⟨h2, ?_⟩
  rw [h2, List.length_drop, List.length_map]
  omega

/-- C2 counterexample: on an empty capacity-5 buffer, `sample(1)` fails with
the `ValueError` that `random.sample` raises, not with the
`InsufficientDataError` named by the claim. -/
theorem sample_error_is_valueError_cex :
    (Buffer.emptyBuf 5).sample 1 [] = .error .valueError
      ∧ (Buffer.emptyBuf 5).sample 1 [] ≠ .error .insufficientDataError := by
  refine ⟨rfl, ?_⟩
  simp [Buffer.emptyBuf, Buffer.sample]

/-- C2 amended: for every buffer state and every `batch_size` strictly greater
than the current length, `sample` fails by raising Python's `ValueError` (from
`random.sample`) rather than returning a batch; the spec's
`InsufficientDataError` is never produced by this code. -/
theorem sample_too_large_fails (b : Buffer) (batch_size : ℕ) (pick : List ℕ)
    (h : b.memory.length < batch_size) :
    b.sample batch_size pick = .error .valueError := by
  simp [Buffer.sample, h]

theorem sample_too_large_fails_witness :
    (Buffer.emptyBuf 3).sample 2 [] = .error .valueError :=
  sample_too_large_fails (Buffer.emptyBuf 3) 2 [] (by decide)

/-- C8: `sample` is read-only with respect to the buffer: the post-state of
the method equals the receiver (same stored transitions, same order, same
length, same capacity), whether the call succeeds or fails; a failing call
returns only an `Except.error`, which carries no batch, so no partially
populated batch is left behind. -/
theorem sample_readonly (b : Buffer) (batch_size : ℕ) (pick : List ℕ) :
    (b.sampleM batch_size pick).2.memory = b.memory
      ∧ (b.sampleM batch_size pick).2.capacity = b.capacity
      ∧ (b.sampleM batch_size pick).1 = b.sample batch_size pick :=
  ⟨rfl, rfl, rfl⟩

theorem subperm_map_getD (l : List Transition) (pick : List ℕ)
    (hnd : pick.Nodup) (hmem : ∀ i ∈ pick, i < l.length) :
    (pick.map (fun i => l.getD i default)).Subperm l := by
  have hmap : pick.map (fun i => l.getD i default)
      = (pick.pmap (fun i h => (⟨i, h⟩ : Fin l.length)) hmem).map l.get := by
    rw [List.map_pmap]
    rw [show (fun i h => l.get ⟨i, h⟩) = fun i (h : i < l.length) => l.getD i default from ?_]
    · exact (List.pmap_eq_map _ _ _ _).symm
    · funext i h
      exact (List.getD_eq_getElem l default h).symm
  have hnd2 : (pick.pmap (fun i h => (⟨i, h⟩ : Fin l.length)) hmem).Nodup :=
    List.Nodup.pmap (fun a _ b _ h => congrArg Fin.val h) hnd
  have hsub : (pick.pmap (fun i h => (⟨i, h⟩ : Fin l.length)) hmem)
      |>.Subperm (List.finRange l.length) :=
    List.Nodup.subperm hnd2 (fun x _ => List.mem_finRange x)
  obtain ⟨u, hup, hus⟩ := hsub
  rw [hmap]
  refine ⟨u.map l.get, hup.map l.get, ?_⟩
  have hs := hus.map l.get
  rwa [List.finRange_map_get] at hs

theorem perm_map_getD (l : List Transition) (pick : List ℕ)
    (hnd : pick.Nodup) (hmem : ∀ i ∈ pick, i < l.length)
    (hlen : pick.length = l.length) :
    (pick.map (fun i => l.getD i default)).Perm l := by
  have hsp := subperm_map_getD l pick hnd hmem
  exact hsp.perm_of_length_le (by simp [hlen])

/-- C3: when `batch_size ≤` the current length, `sample` succeeds and draws
`batch_size` transitions without replacement: the rows of state, action and
reward correspond index-wise to a single list of drawn transitions, there are
exactly `batch_size` of them, as a multiset they are contained in the stored
memory (no stored slot is drawn twice), and when `batch_size` equals the
buffer length the drawn transitions are a permutation of the whole memory
(every stored element exactly once).  The hypotheses on `pick` are exactly
what `random.sample` guarantees of its random draw. -/
theorem sample_without_replacement (b : Buffer) (batch_size : ℕ) (pick : List ℕ)
    (hk : batch_size ≤ b.memory.length)
    (hlen : pick.length = batch_size) (hnd : pick.Nodup)
    (hmem : ∀ i ∈ pick, i < b.memory.length) :
    ∃ samples : List Transition,
      b.sample batch_size pick
          = .ok { state := samples.map Transition.state
                  action := samples.map Transition.action
                  reward := samples.map Transition.reward }
        ∧ samples.length = batch_size
        ∧ samples.Subperm b.memory
        ∧ (batch_size = b.memory.length → samples.Perm b.memory) := by
  refine ⟨pick.map (fun i => b.memory.getD i default), ?_, ?_, ?_, ?_⟩
  · simp [Buffer.sample, Nat.not_lt.mpr hk]
  · simp [hlen]
  · exact subperm_map_getD b.memory pick hnd hmem
  · intro hfull
    exact perm_map_getD b.memory pick hnd hmem (by omega)

/-- A concrete transition used in witnesses. -/
def tA : Transition := ⟨.tensor [1], .tensor [2], .tensor [3]⟩

/-- A second concrete transition used in witnesses. -/
def tB : Transition := ⟨.tensor [4], .tensor [5], .tensor [6]⟩

/-- A concrete two-element buffer used in witnesses. -/
def bufAB : Buffer := ⟨2, [tA, tB]⟩

theorem sample_without_replacement_witness :
    ∃ samples : List Transition,
      bufAB.sample 2 [1, 0]
          = .ok { state := samples.map Transition.state
                  action := samples.map Transition.action
                  reward := samples.map Transition.reward }
        ∧ samples.length = 2
        ∧ samples.Subperm bufAB.memory
        ∧ (2 = bufAB.memory.length → samples.Perm bufAB.memory) :=
  sample_without_replacement bufAB 2 [1, 0] (by decide) (by decide)
    (by decide) (by decide)

/-- Concrete push arguments used in witnesses and counterexamples: a raw
scalar state and a raw integer action index. -/
def pushArgs0 : PushArgs :=
  { state := .rawFloat 1, action := .rawInt 2, reward := 7
    next_state := .rawFloat 0, curr_available_actions := .rawList []
    next_available_actions := .rawList [], action_space := .rawList []
    done := true }

/-- C6 counterexample: `push` does not convert the action into tensor form.
Pushing a raw integer action index stores it exactly as passed: the single
stored transition's action is the raw value `rawInt 2`, which is not a
tensor. -/
theorem push_stores_raw_action_cex :
    ((Buffer.emptyBuf 5).push pushArgs0).memory.map Transition.action = [.rawInt 2]
      ∧ (PyVal.rawInt 2).isTensor = false := by
  constructor <;> rfl

/-- C6 amended: `push` is total (never fails) and converts the raw state and
the raw reward into tensor form before storing, but stores the action exactly
as passed, without conversion: with positive capacity the newly stored (most
recent) transition is `⟨processSingleState s, a, processSingleReward r⟩`,
whose state and reward fields are tensor-valued. -/
theorem push_processes_state_not_action (b : Buffer) (a : PushArgs)
    (hcap : 0 < b.capacity) :
    (b.push a).memory.getLast? = some (mkTransition a)
      ∧ (mkTransition a).state = processSingleState a.state
      ∧ (mkTransition a).action = a.action
      ∧ (mkTransition a).reward = processSingleReward a.reward
      ∧ (processSingleState a.state).isTensor = true
      ∧ (processSingleReward a.reward).isTensor = true := by
  refine ⟨?_, rfl, rfl, rfl, ?_, rfl⟩
  · show (dequeAppend b.capacity b.memory (mkTransition a)).getLast? = some (mkTransition a)
    unfold dequeAppend
    rw [List.drop_append_of_le_length (by simp; omega), List.getLast?_concat]
  · cases h : a.state <;> rfl

theorem push_processes_state_not_action_witness :
    ((Buffer.emptyBuf 3).push pushArgs0).memory.getLast? = some (mkTransition pushArgs0)
      ∧ (mkTransition pushArgs0).state = processSingleState pushArgs0.state
      ∧ (mkTransition pushArgs0).action = pushArgs0.action
      ∧ (mkTransition pushArgs0).reward = processSingleReward pushArgs0.reward
      ∧ (processSingleState pushArgs0.state).isTensor = true
      ∧ (processSingleReward pushArgs0.reward).isTensor = true :=
  push_processes_state_not_action (Buffer.emptyBuf 3) pushArgs0 (by decide)

/-- Modelled from the spec: the arg-max selection inside `DeepLinearBandit.act`
(the policy-learner file is not under src/, only its test is).  Scans the
per-action scores left to right keeping the first index attaining the maximum
(ties broken by first-encountered index).  `i` is the index of the head of the
remaining list, `best` the best index so far, `bestVal` its score. -/
def argmaxFirstAux : List ℚ → ℕ → ℕ → ℚ → ℕ
  | [], _, best, _ => best
  | x :: xs, i, best, bestVal =>
    if bestVal < x then argmaxFirstAux xs (i + 1) i x
    else argmaxFirstAux xs (i + 1) best bestVal

/-- Modelled from the spec: index of the maximal score, first occurrence on
ties (0 on an empty list, which does not arise for a non-empty action
space). -/
def argmaxFirst : List ℚ → ℕ
  | [] => 0
  | x :: xs => argmaxFirstAux xs 1 0 x

/-- Modelled from the spec: `act` on a single subjective state scores every
candidate action of the discrete action space and returns the arg-max index. -/
def actSingle (scores : List ℚ) : ℕ := argmaxFirst scores

/-- Modelled from the spec: `act` on a batch of states applies the same
arg-max selection independently to each row of per-action scores, returning
one action index per input row. -/
def actBatch (scoreRows : List (List ℚ)) : List ℕ := scoreRows.map argmaxFirst

theorem argmaxFirstAux_lt (xs : List ℚ) (i best : ℕ) (bestVal : ℚ) (n : ℕ)
    (hbest : best < n) (hi : i + xs.length ≤ n) :
    argmaxFirstAux xs i best bestVal < n := by
  induction xs generalizing i best bestVal with
  | nil => simpa [argmaxFirstAux] using hbest
  | cons x xs ih =>
    simp only [List.length_cons] at hi
    simp only [argmaxFirstAux]
    split
    · exact ih (i + 1) i x (by omega) (by omega)
    · exact ih (i + 1) best bestVal hbest (by omega)

theorem argmaxFirst_lt (scores : List ℚ) (h : scores ≠ []) :
    argmaxFirst scores < scores.length := by
  cases scores with
  | nil => exact absurd rfl h
  | cons x xs =>
    exact argmaxFirstAux_lt xs 1 0 x (x :: xs).length (by simp) (by simp; omega)

/-- C4: for a discrete action space with `action_count` candidate actions (one
score per action), `act` on a single state returns an index in
`[0, action_count)`; `act` on a batch of per-row scores returns one action per
input row (output length equals the number of rows), each row selected by the
same arg-max logic, so every returned index is also in `[0, action_count)`. -/
theorem act_returns_valid_indices (action_count : ℕ) (scores : List ℚ)
    (rows : List (List ℚ))
    (hs : scores.length = action_count) (h0 : 0 < action_count)
    (hr : ∀ r ∈ rows, r.length = action_count) :
    actSingle scores < action_count
      ∧ (actBatch rows).length = rows.length
      ∧ actBatch rows = rows.map actSingle
      ∧ ∀ x ∈ actBatch rows, x < action_count := by
  have hne : scores ≠ [] := by
    intro hnil
    rw [hnil] at hs
    simp at hs
    omega
  refine ⟨hs ▸ argmaxFirst_lt scores hne, by simp [actBatch], rfl, ?_⟩
  intro x hx
  simp only [actBatch, List.mem_map] at hx
  obtain ⟨r, hrmem, hrx⟩ := hx
  have hrlen := hr r hrmem
  have hrne : r ≠ [] := by
    intro hnil
    rw [hnil] at hrlen
    simp at hrlen
    omega
  rw [← hrx, ← hrlen]
  exact argmaxFirst_lt r hrne

theorem act_returns_valid_indices_witness :
    actSingle [1, 3, 2] < 3
      ∧ (actBatch [[1, 2, 0], [0, 0, 1]]).length
          = ([[1, 2, 0], [0, 0, 1]] : List (List ℚ)).length
      ∧ actBatch [[1, 2, 0], [0, 0, 1]]
          = ([[1, 2, 0], [0, 0, 1]] : List (List ℚ)).map actSingle
      ∧ ∀ x ∈ actBatch [[1, 2, 0], [0, 0, 1]], x < 3 :=
  act_returns_valid_indices 3 [1, 3, 2] [[1, 2, 0], [0, 0, 1]]
    (by decide) (by decide) (by decide)

/-- The part of a `TransitionBatch` that `learn_batch` regresses on: observed
rewards and per-row weights. -/
structure LearnBatch where
  reward : List ℚ
  weight : List ℚ

/-- Modelled from the spec: the weighted mean-squared-error regression loss of
the feature network's per-row reward predictions against the observed
rewards (weights default to 1 when the batch carries none). -/
def mseLoss (predictions rewards weights : List ℚ) : ℚ :=
  (List.zipWith (fun sq w => w * sq)
      (List.zipWith (fun p r => (p - r) ^ 2) predictions rewards) weights).sum
    / weights.sum

/-- Modelled from the spec: `DeepLinearBandit.learn_batch` is not under src/
(only its test is).  Per the spec it performs a single gradient step on the
weighted mean-squared error of predicted vs observed reward and returns a
mapping containing that scalar loss under the key "mlp_loss".  The network's
predictions for the batch appear as an explicit parameter. -/
def learnBatch (predictions : List ℚ) (batch : LearnBatch) : List (String × ℚ) :=
  [("mlp_loss", mseLoss predictions batch.reward batch.weight)]

/-- C5: every `learn_batch` call returns a mapping that contains at least the
key "mlp_loss", bound to the scalar mean-squared-error regression loss of that
single gradient step. -/
theorem learnBatch_returns_mlp_loss (predictions : List ℚ) (batch : LearnBatch) :
    (learnBatch predictions batch).lookup "mlp_loss"
      = some (mseLoss predictions batch.reward batch.weight) := by
  simp [learnBatch, List.lookup]

/-- Dot product of two real vectors given as lists (the embedding of the
per-row tensor dot products in the LinUCB score). -/
noncomputable def dotR (v w : List ℝ) : ℝ := (List.zipWith (· * ·) v w).sum

/-- The quadratic form `xᵀ · ainv · x` for a matrix given as a list of rows. -/
noncomputable def quadFormR (ainv : List (List ℝ)) (x : List ℝ) : ℝ :=
  dotR x (ainv.map (fun row => dotR row x))

/-- Modelled from the spec: `LinUCBExploration.get_scores` is not under src/
(only its test is).  Per the spec, with `θ = A⁻¹ b` and `A⁻¹` fixed, the score
of an embedding `x` under confidence coefficient `α` is
`θᵀx + α · sqrt(xᵀ A⁻¹ x)`. -/
noncomputable def getScoresLinUCB (theta x : List ℝ) (ainv : List (List ℝ))
    (alpha : ℝ) : ℝ :=
  dotR theta x + alpha * Real.sqrt (quadFormR ainv x)

/-- C7: for fixed embedding `x` and fixed linear statistics (hence fixed `θ`
and `A⁻¹`), the LinUCB score is monotone non-decreasing in the confidence
coefficient: the exploration bonus is the coefficient times a square root,
which is never negative. -/
theorem getScores_monotone_in_alpha (theta x : List ℝ) (ainv : List (List ℝ))
    (a1 a2 : ℝ) (h : a1 ≤ a2) :
    getScoresLinUCB theta x ainv a1 ≤ getScoresLinUCB theta x ainv a2 := by
  unfold getScoresLinUCB
  have hs : 0 ≤ Real.sqrt (quadFormR ainv x) := Real.sqrt_nonneg _
  have := mul_le_mul_of_nonneg_right h hs
  linarith

theorem getScores_monotone_in_alpha_witness :
    getScoresLinUCB [1] [1] [[1]] 1 ≤ getScoresLinUCB [1] [1] [[1]] 2 :=
  getScores_monotone_in_alpha [1] [1] [[1]] 1 2 (by norm_num)

/-- A Python number as passed for `step_size`: an `int` or a `float` (floats
modelled as rationals). -/
inductive PyNum where
  | int (n : ℤ)
  | float (q : ℚ)
  deriving DecidableEq, Repr

/-- The Python error relevant here: `TypeError`, raised when a sequence is
multiplied by a non-integer. -/
inductive PyErr where
  | typeError
  deriving DecidableEq, Repr

/-- Python's `sequence * number`: an `int` multiplier repeats the sequence
(`(a, b) * 2 == (a, b, a, b)`; non-positive gives the empty tuple), while a
`float` multiplier raises `TypeError` — tuples have no component-wise
scaling. -/
def seqMul (t : List ℚ) : PyNum → Except PyErr (List ℚ)
  | .int n => .ok (List.flatten (List.replicate n.toNat t))
  | .float _ => .error .typeError

/-- The list comprehension building `DiscreteSparseRewardEnvironment._actions`:
for each action index `i` it evaluates the Python expression
`(math.cos(2π/N·i), math.sin(2π/N·i)) * self._step_size`, a 2-tuple times a
number.  `trig i` supplies the (transcendental) cosine/sine pair as floats.
A comprehension propagates the first error raised by an element. -/
def mkDiscreteActions (stepSize : PyNum) (trig : ℕ → ℚ × ℚ) :
    List ℕ → Except PyErr (List (List ℚ))
  | [] => .ok []
  | i :: is =>
    match seqMul [(trig i).1, (trig i).2] stepSize with
    | .error e => .error e
    | .ok a =>
      match mkDiscreteActions stepSize trig is with
      | .error e => .error e
      | .ok rest => .ok (a :: rest)

/-- The `_actions` field computed during
`DiscreteSparseRewardEnvironment.__init__` for `action_count` actions and the
given `step_size`. -/
def discreteActionsInit (action_count : ℕ) (stepSize : PyNum)
    (trig : ℕ → ℚ × ℚ) : Except PyErr (List (List ℚ)) :=
  mkDiscreteActions stepSize trig (List.range action_count)

/-- C9: constructing `DiscreteSparseRewardEnvironment` with a float (non-int)
`step_size` — including the default `0.01` — fails with `TypeError`: the
expression `(cos, sin) * step_size` is Python sequence repetition, defined
only for integer multipliers, so for any positive `action_count` the
`_actions` comprehension raises and the intended component-wise-scaled
displacement is never produced. -/
theorem discrete_init_float_step_size_typeError (action_count : ℕ) (q : ℚ)
    (trig : ℕ → ℚ × ℚ) (h : 0 < action_count) :
    discreteActionsInit action_count (.float q) trig = .error .typeError := by
  obtain ⟨m, rfl⟩ : ∃ m, action_count = m + 1 :=
    ⟨action_count - 1, by omega⟩
  rw [discreteActionsInit, List.range_succ_eq_map]
  simp [mkDiscreteActions, seqMul]

theorem discrete_init_float_step_size_typeError_witness :
    discreteActionsInit 4 (.float (1 / 100)) (fun _ => (1, 0))
      = .error .typeError :=
  discrete_init_float_step_size_typeError 4 (1 / 100) (fun _ => (1, 0))
    (by norm_num)

/-- The static data of `SparseRewardEnvironment`: the 2-D arena dimensions,
the episode duration cap and the winning distance. -/
structure SREnv where
  length : ℚ
  height : ℚ
  max_episode_duration : ℕ
  reward_distance : ℚ

/-- The mutable state of the environment: agent position, goal and step
counter.  The goal is drawn by `random.uniform` at reset; the draw appears as
an explicit parameter of `reset`. -/
structure SRState where
  agent_position : ℚ × ℚ
  goal : ℚ × ℚ
  step_count : ℕ

/-- `SparseRewardEnvironment.reset`: place the agent at the arena centre, set
the goal to the random draw, zero the step counter. -/
def SREnv.reset (e : SREnv) (goal : ℚ × ℚ) : SRState :=
  { agent_position := (e.length / 2, e.height / 2), goal := goal, step_count := 0 }

/-- `SparseRewardEnvironment._update_position`: move by `delta` and clip each
coordinate so that the agent always stays in the map. -/
def SREnv.update_position (e : SREnv) (pos delta : ℚ × ℚ) : ℚ × ℚ :=
  (max (min (pos.1 + delta.1) e.length) 0, max (min (pos.2 + delta.2) e.height) 0)

/-- `SparseRewardEnvironment._check_win`: whether the agent is strictly within
`reward_distance` of the goal.  Stated on squared distances over ℚ, which is
equivalent to the source's `math.dist(position, goal) < reward_distance`
(see `check_win_iff_dist_lt`). -/
def SREnv.check_win (e : SREnv) (s : SRState) : Bool :=
  decide (0 < e.reward_distance)
    && decide ((s.agent_position.1 - s.goal.1) ^ 2 + (s.agent_position.2 - s.goal.2) ^ 2
        < e.reward_distance ^ 2)

/-- The squared-distance formulation of `check_win` agrees with the source's
Euclidean-distance comparison. -/
theorem check_win_iff_dist_lt (e : SREnv) (s : SRState) :
    e.check_win s = true
      ↔ Real.sqrt (((s.agent_position.1 - s.goal.1 : ℚ) : ℝ) ^ 2
            + ((s.agent_position.2 - s.goal.2 : ℚ) : ℝ) ^ 2)
          < ((e.reward_distance : ℚ) : ℝ) := by
  rw [SREnv.check_win]
  rcases le_or_lt e.reward_distance 0 with hr | hr
  · constructor
    · intro hcontr
      simp only [Bool.and_eq_true, decide_eq_true_eq] at hcontr
      exact absurd hcontr.1 (not_lt.mpr hr)
    · intro hcontr
      have h0 := Real.sqrt_nonneg (((s.agent_position.1 - s.goal.1 : ℚ) : ℝ) ^ 2
        + ((s.agent_position.2 - s.goal.2 : ℚ) : ℝ) ^ 2)
      have : ((e.reward_distance : ℚ) : ℝ) ≤ 0 := by exact_mod_cast hr
      linarith
  · have hrpos : (0 : ℝ) < ((e.reward_distance : ℚ) : ℝ) := by exact_mod_cast hr
    rw [Real.sqrt_lt' hrpos]
    simp only [Bool.and_eq_true, decide_eq_true_eq]
    constructor
    · intro hc
      have := hc.2
      push_cast
      exact_mod_cast this
    · intro hc
      refine ⟨hr, ?_⟩
      exact_mod_cast hc

/-- The result of a `step` call: observation (agent position and goal),
reward, terminated and truncated flags. -/
structure SRActionResult where
  observation : (ℚ × ℚ) × (ℚ × ℚ)
  reward : ℤ
  terminated : Bool
  truncated : Bool

/-- `ContinuousSparseRewardEnvironment.step`: update the position by the
action delta (clipping to the arena), check the win condition on the updated
position, advance the step counter, and return the `ActionResult` (reward 0
on a win, else -1; terminated on a win or when the duration cap is reached)
together with the updated environment state. -/
def SREnv.step (e : SREnv) (s : SRState) (action : ℚ × ℚ) :
    SRActionResult × SRState :=
  let s2 : SRState :=
    { s with
        agent_position := e.update_position s.agent_position action
        step_count := s.step_count + 1 }
  let win := e.check_win s2
  (⟨(s2.agent_position, s2.goal), if win then 0 else -1,
      win || decide (e.max_episode_duration ≤ s2.step_count), false⟩, s2)

/-- The position `(x, y)` is inside the arena. -/
def inArena (e : SREnv) (p : ℚ × ℚ) : Prop :=
  0 ≤ p.1 ∧ p.1 ≤ e.length ∧ 0 ≤ p.2 ∧ p.2 ≤ e.height

theorem update_position_inArena (e : SREnv) (pos delta : ℚ × ℚ)
    (hl : 0 ≤ e.length) (hh : 0 ≤ e.height) :
    inArena e (e.update_position pos delta) := by
  refine ⟨le_max_right _ _, max_le (min_le_right _ _) hl,
    le_max_right _ _, max_le (min_le_right _ _) hh⟩

theorem foldl_step_inArena (e : SREnv) (actions : List (ℚ × ℚ))
    (hl : 0 ≤ e.length) (hh : 0 ≤ e.height) :
    ∀ s : SRState, inArena e s.agent_position →
      inArena e ((actions.foldl (fun s a => (e.step s a).2) s).agent_position) := by
  induction actions with
  | nil => intro s hs; simpa using hs
  | cons a as ih =>
    intro s _
    simp only [List.foldl_cons]
    exact ih _ (update_position_inArena e s.agent_position a hl hh)

/-- C10: after `reset`, for every sequence of `step` calls with arbitrary
action deltas, the agent position stays inside the arena
(`0 ≤ x ≤ length` and `0 ≤ y ≤ height`), because `_update_position` clamps
each coordinate to the arena bounds (stated for an arena with non-negative
dimensions, as "inside the arena" presupposes). -/
theorem position_stays_in_arena (e : SREnv) (goal : ℚ × ℚ)
    (actions : List (ℚ × ℚ)) (hl : 0 ≤ e.length) (hh : 0 ≤ e.height) :
    inArena e
      ((actions.foldl (fun s a => (e.step s a).2) (e.reset goal)).agent_position) := by
  apply foldl_step_inArena e actions hl hh
  simp only [SREnv.reset, inArena]
  refine ⟨by positivity, by linarith, by positivity, by linarith⟩

theorem position_stays_in_arena_witness :
    inArena ⟨2, 3, 500, 1⟩
      (((([(5, -7), (1, 1)] : List (ℚ × ℚ))).foldl
          (fun s a => ((⟨2, 3, 500, 1⟩ : SREnv).step s a).2)
          ((⟨2, 3, 500, 1⟩ : SREnv).reset (0, 0))).agent_position) :=
  position_stays_in_arena ⟨2, 3, 500, 1⟩ (0, 0) [(5, -7), (1, 1)]
    (by norm_num) (by norm_num)

end Pearl
